import Mathlib

/-!
Verification development for the server-interface core of a lightweight
Bitcoin SPV client (`electrum/interface.py`).

The Python source is shallowly embedded: each relevant routine is
translated into an executable Lean function over explicit data.
Python exceptions are modelled by `Except IErr`; Python `bytes` by
`List Nat`; Python `str` by `List Char` (or `String` where convenient);
JSON wire values by the inductive `JVal`.  Network effects are made
explicit: the server's reply to a request is passed in as data, and
global collaborators (the blockchain store, aiorpcx's `NetAddress`)
are passed in as function parameters whose documented properties appear
as hypotheses of the theorems that need them.
-/

/-- Error taxonomy of the embedded code.  `requestCorrupted` corresponds to
the Python `RequestCorrupted` exception; `genericExn` to a bare `Exception`;
`assertionErr` to a failing `assert`; `valueErr` to `ValueError`;
`attrErr` to an `AttributeError` (attribute access on `None`);
`protocolErr` / `rpcErr` to re-raised aiorpcx protocol / RPC errors. -/
inductive IErr where
  | requestCorrupted
  | genericExn
  | assertionErr
  | valueErr
  | attrErr
  | protocolErr
  | rpcErr (code : Int)
deriving DecidableEq, Repr

/-- JSON wire values as delivered by the (untrusted) server.
`jfloat` carries a rational number standing in for a Python float;
none of the verified claims depends on binary floating-point rounding. -/
inductive JVal where
  | jint (n : Int)
  | jfloat (q : Rat)
  | jstr (s : List Char)
  | jlist (xs : List JVal)
  | jdict (kvs : List (List Char × JVal))
  | jnull

/-- First value bound to a key in a dict, modelling Python dict lookup. -/
def lookupKV : List (List Char × JVal) → List Char → Option JVal
  | [], _ => none
  | (k', v) :: rest, k => if k' = k then some v else lookupKV rest k

/-- Embeds `assert_dict_contains_field` (interface.py): fails with
`RequestCorrupted` unless the value is a dict containing the field,
in which case the field's value is returned. -/
def dictField (v : JVal) (k : List Char) : Except IErr JVal :=
  match v with
  | .jdict kvs =>
    match lookupKV kvs k with
    | some x => .ok x
    | none => .error .requestCorrupted
  | _ => .error .requestCorrupted

/-- Total variant of `dictField` used to state properties (default `jnull`). -/
def dictFieldD (v : JVal) (k : List Char) : JVal :=
  match dictField v k with
  | .ok x => x
  | .error _ => .jnull

/-- Underlying integer of a `jint` (default `0`). -/
def jint' : JVal → Int
  | .jint n => n
  | _ => 0

/-- Underlying char list of a `jstr` (default `[]`). -/
def jstr' : JVal → List Char
  | .jstr s => s
  | _ => []

/-- Modelled from the spec: `util.is_integer` (src/electrum/util.py is not in
the provided sources).  Spec 4.1: "is-integer". -/
def isIntegerV : JVal → Bool
  | .jint _ => true
  | _ => false

/-- Modelled from the spec: `util.is_non_negative_integer`.
Spec 4.1: "is-non-negative-integer". -/
def isNonNegIntV : JVal → Bool
  | .jint n => decide (0 ≤ n)
  | _ => false

/-- Modelled from the spec: `util.is_int_or_float`.  Spec 4.1: "is-int-or-float". -/
def isIntOrFloatV : JVal → Bool
  | .jint _ => true
  | .jfloat _ => true
  | _ => false

/-- Modelled from the spec: `util.is_non_negative_int_or_float`.
Spec 4.1: "is-non-negative-int-or-float". -/
def isNonNegIntOrFloatV : JVal → Bool
  | .jint n => decide (0 ≤ n)
  | .jfloat q => decide (0 ≤ q)
  | _ => false

/-- Hex digit test (lower- or upper-case). -/
def isHexDigitChar (c : Char) : Bool :=
  ('0' ≤ c && c ≤ '9') || ('a' ≤ c && c ≤ 'f') || ('A' ≤ c && c ≤ 'F')

/-- Modelled from the spec: `util.is_hex_str`.  Spec 4.1: "is-hex-string
(even length, hex alphabet)". -/
def isHexStr (s : List Char) : Bool :=
  s.length % 2 = 0 && s.all isHexDigitChar

/-- `is_hex_str` applied to an arbitrary wire value (non-strings fail). -/
def isHexStrV : JVal → Bool
  | .jstr s => isHexStr s
  | _ => false

/-- Modelled from the spec: `util.is_hash256_str`.  Spec 4.1:
"is-hash256-hex (64 hex chars)". -/
def isHash256Str (s : List Char) : Bool :=
  s.length = 64 && s.all isHexDigitChar

/-- `is_hash256_str` applied to an arbitrary wire value. -/
def isHash256StrV : JVal → Bool
  | .jstr s => isHash256Str s
  | _ => false

/-! ## PaddedRSTransport (interface.py lines 291-394)

The decision procedure `_maybe_consume_sbuffer` is a pure function of the
send buffer and three booleans capturing `self._can_send.is_set()`,
`self.is_closing()` and the elapsed-time test
`self._last_send + WAIT_FOR_BUFFER_GROWTH_SECONDS < time.monotonic()`.
Bytes are `Nat`s; `0x7d 0x0a` is the terminator after a JSON object and
`0x5d 0x0a` the one after a JSON array; `0x20` is the pad space. -/

def MIN_PACKET_SIZE : Nat := 1024

/-- Fuelled base-2 logarithm (so that it reduces in the kernel);
`log2fuel f n = Nat.log2 n` whenever `n ≤ f`. -/
def log2fuel : Nat → Nat → Nat
  | 0, _ => 0
  | f + 1, n => if n < 2 then 0 else log2fuel f (n / 2) + 1

/-- Python `int.bit_length` for non-negative integers. -/
def bitLength (n : Nat) : Nat :=
  if n = 0 then 0 else log2fuel n n + 1

/-- The `total_lsize` computed at interface.py line 338:
`max(self.MIN_PACKET_SIZE, 2 ** (payload_lsize.bit_length()))`. -/
def totalLsizeOf (payloadLsize : Nat) : Nat :=
  max MIN_PACKET_SIZE (2 ^ bitLength payloadLsize)

/-- The `npad_lsize` computed at interface.py line 339. -/
def npadLsizeOf (payloadLsize : Nat) : Nat :=
  totalLsizeOf payloadLsize - payloadLsize

/-- Python `buf.rfind(b"\n", 0, k)` as an index option: the largest
`i < min k buf.length` with `buf[i] = 0x0a`. -/
def lastNLBelow (buf : List Nat) (k : Nat) : Option Nat :=
  (List.range (min k buf.length)).reverse.find? (fun i => buf.getD i 0 == 10)

/-- Whether a 2-byte slice is one of the JSON-RPC frame terminators
`b"}\n"` (0x7d 0x0a) or `b"]\n"` (0x5d 0x0a). -/
def isTerm (l : List Nat) : Bool :=
  l == [125, 10] || l == [93, 10]

/-- Python `buf[-2:]` for the buffers reaching the terminator assert
(length ≥ 1 there; for length ≥ 2 this is the last two bytes, for a
1-byte buffer the whole buffer, as in Python). -/
def lastTwo (buf : List Nat) : List Nat :=
  buf.drop (buf.length - 2)

/-- The `total_ssize` computed at interface.py line 342:
`max(self.MIN_PACKET_SIZE, total_lsize // 2)`. -/
def totalSsizeOf (payloadLsize : Nat) : Nat :=
  max MIN_PACKET_SIZE (totalLsizeOf payloadLsize / 2)

/-- Steps 336-357 of `_maybe_consume_sbuffer`: decide between the "lsize"
packet (consume the full buffer) and the "ssize" packet (consume only up to
the last frame terminator strictly before `total_ssize`), returning the
chosen `(p_idx, npad)`.  When no terminator occurs before `total_ssize`,
`npad_ssize` is `+∞` and the "lsize" option wins. -/
def sbufChoice (forceSend : Bool) (buf : List Nat) : Nat × Nat :=
  match lastNLBelow buf (totalSsizeOf buf.length) with
  | none => (buf.length, npadLsizeOf buf.length)
  | some i =>
    if forceSend ∨ npadLsizeOf buf.length ≤ totalSsizeOf buf.length - (i + 1) then
      (buf.length, npadLsizeOf buf.length)
    else
      (i + 1, totalSsizeOf buf.length - (i + 1))

/-- Python `buf[p_idx-2:p_idx]`, the candidate json-rpc terminator of the
chosen payload.  Taken literally for `p_idx ≥ 2`; for `p_idx < 2` the Python
slice (whose start index is negative) is empty for every buffer of length
≥ 2, which is what all buffers reaching this expression have, so `[]`
models it, and the subsequent terminator assert then fails either way. -/
def termSlice (buf : List Nat) (pIdx : Nat) : List Nat :=
  if 2 ≤ pIdx then (buf.drop (pIdx - 2)).take 2 else []

/-- The emitted packet `buf[:p_idx-2] + npad * b" " + terminator`
(interface.py line 366). -/
def emitPacket (buf : List Nat) (pn : Nat × Nat) : List Nat :=
  buf.take (pn.1 - 2) ++ List.replicate pn.2 32 ++ termSlice buf pn.1

/-- Embeds `PaddedRSTransport._maybe_consume_sbuffer` (interface.py 321-371).
Returns `none` when nothing is emitted, and `some (packet, rest)` when
`packet` is written to the asyncio transport and `rest` is the remaining
send buffer. -/
def maybeConsumeSbuffer (canSend closing forceSend timedOut : Bool)
    (buf : List Nat) : Except IErr (Option (List Nat × List Nat)) :=
  if ¬ canSend ∨ closing then .ok none
  else if buf = [] then .ok none
  else if ¬ (forceSend ∨ MIN_PACKET_SIZE ≤ buf.length ∨ timedOut) then .ok none
  else if ¬ isTerm (lastTwo buf) then .error .assertionErr
  else if ¬ isTerm (termSlice buf (sbufChoice forceSend buf).1) then .error .assertionErr
  else .ok (some (emitPacket buf (sbufChoice forceSend buf),
                  buf.drop (sbufChoice forceSend buf).1))

/-! ### Arithmetic facts about `bitLength` and the packet-size quantities -/

theorem log2fuel_bounds :
    ∀ f n, n ≤ f → n < 2 ^ (log2fuel f n + 1) ∧ (1 ≤ n → 2 ^ log2fuel f n ≤ n) := by
  intro f
  induction f with
  | zero =>
    intro n hn
    interval_cases n
    simp [log2fuel]
  | succ f ih =>
    intro n hn
    by_cases h2 : n < 2
    · constructor
      · simp [log2fuel, h2]
      · intro h1
        simpa [log2fuel, h2] using h1
    · have hrec : log2fuel (f + 1) n = log2fuel f (n / 2) + 1 := by
        simp [log2fuel, h2]
      have hdiv : n / 2 ≤ f := by omega
      obtain ⟨hlt, hle⟩ := ih (n / 2) hdiv
      have hle' := hle (by omega)
      rw [hrec]
      constructor
      · have hpow : 2 ^ (log2fuel f (n / 2) + 1 + 1) = 2 * 2 ^ (log2fuel f (n / 2) + 1) := by
          ring
        omega
      · intro _
        have hpow : 2 ^ (log2fuel f (n / 2) + 1) = 2 * 2 ^ (log2fuel f (n / 2)) := by
          ring
        omega

theorem lt_two_pow_bitLength (n : Nat) : n < 2 ^ bitLength n := by
  by_cases h0 : n = 0
  · simp [h0, bitLength]
  · have := (log2fuel_bounds n n le_rfl).1
    simpa [bitLength, h0]

theorem two_pow_pred_bitLength_le (n : Nat) (h : 1 ≤ n) :
    2 ^ (bitLength n - 1) ≤ n := by
  have := (log2fuel_bounds n n le_rfl).2 h
  have hb : bitLength n = log2fuel n n + 1 := by
    simp [bitLength]; omega
  simpa [hb]

theorem bitLength_le_of_lt_pow (n j : Nat) (h0 : 0 < n) (h : n < 2 ^ j) :
    bitLength n ≤ j := by
  by_contra hc
  push_neg at hc
  have h1 : j ≤ bitLength n - 1 := by omega
  have h2 : 2 ^ j ≤ 2 ^ (bitLength n - 1) := Nat.pow_le_pow_right (by omega) h1
  have h3 := two_pow_pred_bitLength_le n h0
  omega

theorem max_pow_two (a b : Nat) : max (2 ^ a) (2 ^ b) = 2 ^ max a b := by
  rcases le_total a b with h | h
  · rw [max_eq_right (Nat.pow_le_pow_right (by omega) h), max_eq_right h]
  · rw [max_eq_left (Nat.pow_le_pow_right (by omega) h), max_eq_left h]

theorem totalLsizeOf_eq_pow (n : Nat) :
    totalLsizeOf n = 2 ^ max 10 (bitLength n) := by
  have : MIN_PACKET_SIZE = 2 ^ 10 := by decide
  rw [totalLsizeOf, this, max_pow_two]

theorem le_totalLsizeOf (n : Nat) : n ≤ totalLsizeOf n := by
  have h1 := lt_two_pow_bitLength n
  have h2 : 2 ^ bitLength n ≤ totalLsizeOf n := le_max_right _ _
  omega

theorem min_le_totalLsizeOf (n : Nat) : MIN_PACKET_SIZE ≤ totalLsizeOf n :=
  le_max_left _ _

theorem pow_two_div_two (m : Nat) (h : 1 ≤ m) : 2 ^ m / 2 = 2 ^ (m - 1) := by
  have hm : 2 ^ m = 2 ^ (m - 1) * 2 := by
    rw [← pow_succ]
    congr 1
    omega
  rw [hm, Nat.mul_div_cancel _ (by omega)]

theorem totalSsizeOf_eq_pow (n : Nat) :
    totalSsizeOf n = 2 ^ max 10 (max 10 (bitLength n) - 1) := by
  rw [totalSsizeOf, totalLsizeOf_eq_pow,
      pow_two_div_two _ (by have := le_max_left 10 (bitLength n); omega),
      show MIN_PACKET_SIZE = 2 ^ 10 by decide, max_pow_two]

theorem lastNLBelow_lt (buf : List Nat) (k i : Nat) (h : lastNLBelow buf k = some i) :
    i < k ∧ i < buf.length := by
  have hm := List.mem_of_find?_eq_some h
  rw [List.mem_reverse, List.mem_range] at hm
  omega

/-- Case analysis of `sbufChoice`: either the "lsize" option is taken and
the whole buffer is consumed, or the "ssize" option cuts at the newline
found before `total_ssize`. -/
theorem sbufChoice_cases (forceSend : Bool) (buf : List Nat) :
    sbufChoice forceSend buf = (buf.length, npadLsizeOf buf.length) ∨
    ∃ i, lastNLBelow buf (totalSsizeOf buf.length) = some i ∧
      sbufChoice forceSend buf = (i + 1, totalSsizeOf buf.length - (i + 1)) := by
  unfold sbufChoice
  cases h : lastNLBelow buf (totalSsizeOf buf.length) with
  | none => left; rfl
  | some i =>
    by_cases hc :
        forceSend = true ∨ npadLsizeOf buf.length ≤ totalSsizeOf buf.length - (i + 1)
    · left; simp [hc]
    · right; exact ⟨i, rfl, by simp [hc]⟩

/-- Whichever option `sbufChoice` picks, the chosen payload fits in the
buffer and payload size plus pad size is a power of two that is at least
`2 ^ 10 = MIN_PACKET_SIZE`. -/
theorem sbufChoice_spec (forceSend : Bool) (buf : List Nat) :
    (sbufChoice forceSend buf).1 ≤ buf.length ∧
    ∃ m, 10 ≤ m ∧ (sbufChoice forceSend buf).1 + (sbufChoice forceSend buf).2 = 2 ^ m := by
  have hlsize : buf.length + npadLsizeOf buf.length = 2 ^ max 10 (bitLength buf.length) := by
    have h1 := le_totalLsizeOf buf.length
    have h2 := totalLsizeOf_eq_pow buf.length
    rw [npadLsizeOf]
    omega
  rcases sbufChoice_cases forceSend buf with heq | ⟨i, hnl, heq⟩
  · rw [heq]
    exact ⟨le_rfl, max 10 (bitLength buf.length), le_max_left _ _, hlsize⟩
  · obtain ⟨hik, hil⟩ := lastNLBelow_lt buf _ i hnl
    rw [heq]
    refine ⟨by omega, max 10 (max 10 (bitLength buf.length) - 1), le_max_left _ _, ?_⟩
    rw [totalSsizeOf_eq_pow] at hik ⊢
    omega

theorem isTerm_length (l : List Nat) (h : isTerm l = true) : l.length = 2 := by
  simp only [isTerm, Bool.or_eq_true, beq_iff_eq] at h
  rcases h with h | h <;> simp [h]

/-- C4.  Every packet emitted by `_maybe_consume_sbuffer` (with
`force_send` false, as in every long-lived session) has a total byte
length — payload plus pad spaces plus terminator — that is a power of
two no smaller than `MIN_PACKET_SIZE = 1024`. -/
theorem paddedTransport_packet_pow2
    (canSend closing timedOut forceSend : Bool) (buf pkt rest : List Nat)
    (_hforce : forceSend = false)
    (hr : maybeConsumeSbuffer canSend closing forceSend timedOut buf =
      .ok (some (pkt, rest))) :
    ∃ k, pkt.length = 2 ^ k ∧ MIN_PACKET_SIZE ≤ pkt.length := by
  unfold maybeConsumeSbuffer at hr
  split at hr
  · exact absurd hr (by simp)
  split at hr
  · exact absurd hr (by simp)
  split at hr
  · exact absurd hr (by simp)
  split at hr
  · exact absurd hr (by simp)
  split at hr
  · exact absurd hr (by simp)
  rename_i hterm
  rw [not_not] at hterm
  obtain ⟨hple, m, hm10, hsum⟩ := sbufChoice_spec forceSend buf
  have htl := isTerm_length _ hterm
  have hp2 : 2 ≤ (sbufChoice forceSend buf).1 := by
    by_contra hc
    rw [termSlice, if_neg hc] at hterm
    exact absurd hterm (by decide)
  have hpkt : pkt = emitPacket buf (sbufChoice forceSend buf) := by
    have := hr
    injection this with h1
    injection h1 with h2
    exact (congrArg Prod.fst h2).symm
  have hlen : pkt.length = (sbufChoice forceSend buf).1 + (sbufChoice forceSend buf).2 := by
    rw [hpkt, emitPacket]
    simp only [List.length_append, List.length_take, List.length_replicate, htl]
    omega
  have hmin : 2 ^ 10 ≤ 2 ^ m := Nat.pow_le_pow_right (by omega) hm10
  refine ⟨m, by omega, ?_⟩
  have : MIN_PACKET_SIZE = 2 ^ 10 := by decide
  omega

/-- Concrete send buffer: six spaces followed by the terminator `}\n`. -/
def bufW : List Nat := List.replicate 6 32 ++ [125, 10]

/-- The packet the transport emits for `bufW` once the buffer timer expires. -/
def pktW : List Nat := List.replicate 6 32 ++ (List.replicate 1016 32 ++ [125, 10])

/-- Witness for C4: a concrete run of the decision procedure (timer expired,
`force_send` false) emits a packet of exactly 1024 = 2^10 bytes. -/
theorem paddedTransport_packet_pow2_example :
    ∃ k, pktW.length = 2 ^ k ∧ MIN_PACKET_SIZE ≤ pktW.length :=
  paddedTransport_packet_pow2 true false true false bufW pktW [] rfl rfl

/-- Powers of two compare like their exponents. -/
theorem pow_two_le_pow_two_iff (a b : Nat) : 2 ^ a ≤ 2 ^ b ↔ a ≤ b := by
  constructor
  · intro h
    by_contra hc
    push_neg at hc
    have h1 := Nat.pow_le_pow_right (show 1 ≤ 2 by omega) (show b + 1 ≤ a by omega)
    have h2 : (2:Nat) ^ b < 2 ^ (b + 1) := by
      have h3 : (2:Nat) ^ (b + 1) = 2 ^ b * 2 := by ring
      have hp : 0 < (2:Nat) ^ b := Nat.pos_pow_of_pos b (by omega)
      omega
    omega
  · exact Nat.pow_le_pow_right (by omega)

/-- Modelled from the spec's words (for comparison with the code): the spec
defines `next_pow2(n)` as "the least power of two ≥ n". -/
def nextPow2Spec (n : Nat) : Nat :=
  if n ≤ 1 then 1 else 2 ^ bitLength (n - 1)

/-- The spec-side `next_pow2` really is the least power of two `≥ n`. -/
theorem nextPow2Spec_isLeast (n : Nat) :
    IsLeast {m | (∃ k, m = 2 ^ k) ∧ n ≤ m} (nextPow2Spec n) := by
  by_cases h1 : n ≤ 1
  · refine ⟨⟨⟨0, by rw [nextPow2Spec, if_pos h1]; rfl⟩,
      by rw [nextPow2Spec, if_pos h1]; omega⟩, ?_⟩
    rintro m ⟨⟨k, rfl⟩, _⟩
    rw [nextPow2Spec, if_pos h1]
    exact Nat.one_le_two_pow
  · refine ⟨⟨⟨bitLength (n - 1), by rw [nextPow2Spec, if_neg h1]⟩, ?_⟩, ?_⟩
    · have := lt_two_pow_bitLength (n - 1)
      rw [nextPow2Spec, if_neg h1]
      omega
    · rintro m ⟨⟨k, rfl⟩, hle⟩
      have hk : bitLength (n - 1) ≤ k :=
        bitLength_le_of_lt_pow (n - 1) k (by omega) (by omega)
      rw [nextPow2Spec, if_neg h1]
      exact Nat.pow_le_pow_right (by omega) hk

/-- Bit length of an exact power of two. -/
theorem bitLength_two_pow (k : Nat) : bitLength (2 ^ k) = k + 1 := by
  have hpos : 0 < 2 ^ k := Nat.pos_pow_of_pos k (by omega)
  have h1 : bitLength (2 ^ k) ≤ k + 1 :=
    bitLength_le_of_lt_pow _ _ hpos (by
      have h2 : (2:Nat) ^ (k + 1) = 2 ^ k * 2 := by ring
      omega)
  have h2 := lt_two_pow_bitLength (2 ^ k)
  by_contra hc
  have h3 : bitLength (2 ^ k) ≤ k := by omega
  have := Nat.pow_le_pow_right (show 1 ≤ 2 by omega) h3
  omega

/-- Counterexample for C5.  The claim computes
`total_lsize = max(MIN_PACKET_SIZE, next_pow2(payload_lsize))` with
`next_pow2` the least power of two `≥ n`, and concludes `npad_lsize = 0`
for a buffer whose length is itself a power of two `≥ 1024`.  The code
(interface.py line 338) computes `2 ** payload_lsize.bit_length()`, which
at the power of two `payload_lsize = 1024` yields 2048, not
`max(1024, next_pow2(1024)) = 1024`, so the full-buffer option pads with
1024 bytes, not 0. -/
theorem npadLsize_pow2_claim_false :
    nextPow2Spec 1024 = 1024 ∧
    max MIN_PACKET_SIZE (nextPow2Spec 1024) = 1024 ∧
    totalLsizeOf 1024 = 2048 ∧
    npadLsizeOf 1024 = 1024 ∧
    npadLsizeOf 1024 ≠ 0 := by
  decide

/-- C5 (amended).  For every non-empty send buffer,
`total_lsize = max(MIN_PACKET_SIZE, 2 ** bit_length(payload_lsize))`, which
is the least power of two that is `≥ MIN_PACKET_SIZE` and *strictly greater*
than `payload_lsize`; `npad_lsize = total_lsize − payload_lsize`; in
particular, when the buffer length is itself a power of two `≥ 1024`, the
full-buffer option pads with `payload_lsize` bytes (`npad_lsize =
payload_lsize`), not zero. -/
theorem totalLsize_least_pow2_gt (n : Nat) (h : 1 ≤ n) :
    npadLsizeOf n = totalLsizeOf n - n ∧
    IsLeast {m | (∃ k, m = 2 ^ k) ∧ MIN_PACKET_SIZE ≤ m ∧ n < m} (totalLsizeOf n) ∧
    ((∃ k, n = 2 ^ k) → MIN_PACKET_SIZE ≤ n → npadLsizeOf n = n) := by
  refine ⟨rfl, ⟨?_, ?_⟩, ?_⟩
  · show (∃ k, totalLsizeOf n = 2 ^ k) ∧ MIN_PACKET_SIZE ≤ totalLsizeOf n ∧ n < totalLsizeOf n
    refine ⟨⟨max 10 (bitLength n), totalLsizeOf_eq_pow n⟩, min_le_totalLsizeOf n, ?_⟩
    have h1 := lt_two_pow_bitLength n
    have h2 : 2 ^ bitLength n ≤ totalLsizeOf n := le_max_right _ _
    omega
  · rintro m ⟨⟨k, rfl⟩, hmin, hlt⟩
    have h10 : 10 ≤ k := by
      rw [← pow_two_le_pow_two_iff]
      have hm : MIN_PACKET_SIZE = 2 ^ 10 := by decide
      omega
    have hbl : bitLength n ≤ k := bitLength_le_of_lt_pow n k (by omega) hlt
    rw [totalLsizeOf_eq_pow]
    exact Nat.pow_le_pow_right (by omega) (by omega)
  · rintro ⟨k, rfl⟩ hmin
    have hbl : bitLength (2 ^ k) = k + 1 := bitLength_two_pow k
    have h10 : 10 ≤ k := by
      rw [← pow_two_le_pow_two_iff]
      have hm : MIN_PACKET_SIZE = 2 ^ 10 := by decide
      omega
    have htot : totalLsizeOf (2 ^ k) = 2 ^ (k + 1) := by
      rw [totalLsizeOf_eq_pow, hbl, max_eq_right (by omega)]
    have hdouble : (2:Nat) ^ (k + 1) = 2 ^ k * 2 := by ring
    rw [npadLsizeOf, htot]
    omega

/-- Witness for C5 (amended), at the concrete power-of-two buffer length
1024: the code pads the full-buffer option with 1024 bytes there. -/
theorem totalLsize_least_pow2_gt_example :
    npadLsizeOf 1024 = totalLsizeOf 1024 - 1024 ∧ npadLsizeOf 1024 = 1024 :=
  ⟨(totalLsize_least_pow2_gt 1024 (by decide)).1,
   (totalLsize_least_pow2_gt 1024 (by decide)).2.2 ⟨10, by decide⟩ (by decide)⟩

/-! ## ServerAddr (interface.py 397-481)

aiorpcx's `NetAddress` is an external dependency (not part of this
repository).  It is modelled by two parameters: `canon`, the validation and
canonicalization that `NetAddress(host, port)` applies to a
(bracket-stripped) host, returning `none` when the constructor would raise;
and `isIPv6`, telling whether a canonical host is an IPv6 literal, which
`str(NetAddress(...))` renders in square brackets.  Port validation
(integer in `[0, 65535]`, decimal strings accepted) is embedded concretely.
The round-trip theorem states the properties of `canon` it relies on as
hypotheses: canonicalization is idempotent and canonical hosts are
non-empty and contain no square brackets. -/

/-- The character of a decimal digit. -/
def digitChar (d : Nat) : Char := Char.ofNat (48 + d % 10)

/-- Fuelled accumulator loop producing the decimal digits of `n`. -/
def toDigitsAux : Nat → Nat → List Char → List Char
  | 0, _, acc => acc
  | f + 1, n, acc =>
    if n < 10 then digitChar n :: acc
    else toDigitsAux f (n / 10) (digitChar (n % 10) :: acc)

/-- Python `str(n)` for a natural number. -/
def natToChars (n : Nat) : List Char := toDigitsAux (n + 1) n []

/-- Decimal digit value of a character, `none` for non-digits. -/
def charToDigit (c : Char) : Option Nat :=
  if '0' ≤ c ∧ c ≤ '9' then some (c.toNat - 48) else none

/-- Accumulator loop of decimal parsing. -/
def charsToNatAux : Nat → List Char → Option Nat
  | acc, [] => some acc
  | acc, c :: cs =>
    match charToDigit c with
    | some d => charsToNatAux (10 * acc + d) cs
    | none => none

/-- Python `int(s)` restricted to plain decimal-digit strings — the only
form produced by `str(int)` and hence the only form the round-trip needs. -/
def charsToNat (s : List Char) : Option Nat :=
  if s = [] then none else charsToNatAux 0 s

theorem charToDigit_digitChar (d : Nat) (h : d < 10) :
    charToDigit (digitChar d) = some d := by
  interval_cases d <;> decide

theorem toDigitsAux_ne_nil : ∀ f n acc, toDigitsAux (f + 1) n acc ≠ [] := by
  intro f
  induction f with
  | zero =>
    intro n acc
    by_cases h : n < 10 <;> simp [toDigitsAux, h]
  | succ f ih =>
    intro n acc
    by_cases h : n < 10
    · simp [toDigitsAux, h]
    · simpa [toDigitsAux, h] using ih (n / 10) (digitChar (n % 10) :: acc)

theorem charsToNatAux_toDigitsAux :
    ∀ f n acc v, n ≤ f →
      ∃ w, charsToNatAux v (toDigitsAux (f + 1) n acc) = charsToNatAux w acc ∧
        (v = 0 → w = n) := by
  intro f
  induction f with
  | zero =>
    intro n acc v hn
    interval_cases n
    exact ⟨10 * v + 0, by simp [toDigitsAux, charsToNatAux, charToDigit_digitChar 0 (by omega)],
      by omega⟩
  | succ f ih =>
    intro n acc v hn
    by_cases h10 : n < 10
    · refine ⟨10 * v + n, ?_, by omega⟩
      simp [toDigitsAux, h10, charsToNatAux, charToDigit_digitChar n h10]
    · have hstep : toDigitsAux (f + 1 + 1) n acc
          = toDigitsAux (f + 1) (n / 10) (digitChar (n % 10) :: acc) := by
        simp [toDigitsAux, h10]
      rw [hstep]
      obtain ⟨w, hw, hw0⟩ := ih (n / 10) (digitChar (n % 10) :: acc) v (by omega)
      have hone : charsToNatAux w (digitChar (n % 10) :: acc)
          = charsToNatAux (10 * w + n % 10) acc := by
        simp [charsToNatAux, charToDigit_digitChar (n % 10) (Nat.mod_lt _ (by omega))]
      refine ⟨10 * w + n % 10, hw.trans hone, ?_⟩
      intro hv
      have := hw0 hv
      omega

/-- Parsing inverts printing for natural numbers. -/
theorem charsToNat_natToChars (n : Nat) : charsToNat (natToChars n) = some n := by
  obtain ⟨w, hw, hw0⟩ := charsToNatAux_toDigitsAux n n [] 0 le_rfl
  rw [charsToNat, if_neg (show natToChars n ≠ [] from toDigitsAux_ne_nil n n [])]
  rw [natToChars, hw, hw0 rfl]
  rfl

theorem mem_toDigitsAux :
    ∀ f n acc c, c ∈ toDigitsAux f n acc → c ∈ acc ∨ ∃ d, d < 10 ∧ c = digitChar d := by
  intro f
  induction f with
  | zero =>
    intro n acc c h
    exact Or.inl h
  | succ f ih =>
    intro n acc c h
    by_cases h10 : n < 10
    · simp only [toDigitsAux, if_pos h10, List.mem_cons] at h
      rcases h with rfl | h
      · exact Or.inr ⟨n, h10, rfl⟩
      · exact Or.inl h
    · simp only [toDigitsAux, if_neg h10] at h
      rcases ih (n / 10) (digitChar (n % 10) :: acc) c h with h | h
      · rcases List.mem_cons.mp h with rfl | h
        · exact Or.inr ⟨n % 10, Nat.mod_lt _ (by omega), rfl⟩
        · exact Or.inl h
      · exact Or.inr h

theorem colon_not_mem_natToChars (n : Nat) : ':' ∉ natToChars n := by
  intro h
  rcases mem_toDigitsAux (n + 1) n [] ':' h with h | ⟨d, hd, he⟩
  · simp at h
  · interval_cases d <;> exact absurd he (by decide)

/-- Split a string at its last colon: `some (before, after)` with
`s = before ++ ':' :: after` and no colon in `after`; `none` when `s` has
no colon.  Two such splits embed Python `s.rsplit(':', 2)` as used by
`ServerAddr.from_str`. -/
def splitLastColon (s : List Char) : Option (List Char × List Char) :=
  match s.reverse.dropWhile (· != ':') with
  | [] => none
  | _ :: before => some (before.reverse, (s.reverse.takeWhile (· != ':')).reverse)

/-- Python `s.rsplit(':', 2)` unpacked into three names: `none` models the
`ValueError` raised when fewer than three parts result. -/
def rsplit2Colon (s : List Char) : Option (List Char × List Char × List Char) :=
  match splitLastColon s with
  | none => none
  | some (s1, c) =>
    match splitLastColon s1 with
    | none => none
    | some (a, b) => some (a, b, c)

theorem takeWhile_no_colon (l r : List Char) (hl : ∀ c ∈ l, c ≠ ':') :
    (l ++ ':' :: r).takeWhile (· != ':') = l := by
  induction l with
  | nil => simp [List.takeWhile]
  | cons x xs ih =>
    have hx : (x != ':') = true := by
      simpa using hl x (List.mem_cons_self x xs)
    simp only [List.cons_append, List.takeWhile_cons, hx, if_pos]
    rw [ih (fun c hc => hl c (List.mem_cons_of_mem x hc))]

theorem dropWhile_no_colon (l r : List Char) (hl : ∀ c ∈ l, c ≠ ':') :
    (l ++ ':' :: r).dropWhile (· != ':') = ':' :: r := by
  induction l with
  | nil => simp [List.dropWhile]
  | cons x xs ih =>
    have hx : (x != ':') = true := by
      simpa using hl x (List.mem_cons_self x xs)
    simp only [List.cons_append, List.dropWhile_cons, hx, if_pos]
    exact ih (fun c hc => hl c (List.mem_cons_of_mem x hc))

theorem splitLastColon_append (a b : List Char) (hb : ':' ∉ b) :
    splitLastColon (a ++ ':' :: b) = some (a, b) := by
  have hbrev : ∀ c ∈ b.reverse, c ≠ ':' := by
    intro c hc
    rw [List.mem_reverse] at hc
    intro hcc
    exact hb (hcc ▸ hc)
  have hrev : (a ++ ':' :: b).reverse = b.reverse ++ ':' :: a.reverse := by
    simp
  rw [splitLastColon, hrev, dropWhile_no_colon _ _ hbrev, takeWhile_no_colon _ _ hbrev]
  simp

/-- The state of a `ServerAddr` value: canonical host, validated port,
protocol (`"t"` or `"s"`), and the cached `str(NetAddress(host, port))`. -/
structure SA where
  host : List Char
  port : Nat
  protocol : List Char
  netAddrStr : List Char
deriving DecidableEq

/-- `str(NetAddress(host, port))`: IPv6 literal hosts are bracketed. -/
def formatNetAddr (isIPv6 : List Char → Bool) (host : List Char) (port : Nat) :
    List Char :=
  (if isIPv6 host then '[' :: host ++ [']'] else host) ++ ':' :: natToChars port

/-- aiorpcx port validation: `int(port)` (decimal strings or ints) and
range check `0 ≤ port ≤ 65535`. -/
def validatePort : Int ⊕ List Char → Option Nat
  | .inl i => if 0 ≤ i ∧ i ≤ 65535 then some i.toNat else none
  | .inr s =>
    match charsToNat s with
    | some p => if p ≤ 65535 then some p else none
    | none => none

/-- The bracket-stripping step of `ServerAddr.__init__` (interface.py 405-406):
`if host[0] == '[' and host[-1] == ']': host = host[1:-1]`. -/
def stripBrackets (h : List Char) : List Char :=
  if h.head? = some '[' ∧ h.getLast? = some ']' then (h.drop 1).dropLast else h

/-- Embeds `ServerAddr.__init__` (interface.py 399-416), parameterized by the
`NetAddress` model `canon` / `isIPv6`.  A missing protocol defaults to `"s"`;
an empty host, a host or port rejected by `NetAddress`, or an unknown
protocol raise `ValueError`. -/
def SA.make (canon : List Char → Option (List Char)) (isIPv6 : List Char → Bool)
    (host0 : List Char) (port : Int ⊕ List Char) (protocol? : Option (List Char)) :
    Except IErr SA :=
  if host0 = [] then .error .valueErr
  else
    match canon (stripBrackets host0) with
    | none => .error .valueErr
    | some ch =>
      match validatePort port with
      | none => .error .valueErr
      | some p =>
        if protocol?.getD ['s'] ≠ ['t'] ∧ protocol?.getD ['s'] ≠ ['s'] then
          .error .valueErr
        else .ok ⟨ch, p, protocol?.getD ['s'], formatNetAddr isIPv6 ch p⟩

/-- Embeds `ServerAddr.__str__` (interface.py 458-459):
`'{}:{}'.format(self.net_addr_str(), self.protocol)`. -/
def SA.str (a : SA) : List Char :=
  a.netAddrStr ++ ':' :: a.protocol

/-- Embeds `ServerAddr.from_str` (interface.py 418-423): rsplit on the last
two colons, then construct. -/
def SA.fromStr (canon : List Char → Option (List Char)) (isIPv6 : List Char → Bool)
    (s : List Char) : Except IErr SA :=
  match rsplit2Colon s with
  | none => .error .valueErr
  | some (host, port, protocol) => SA.make canon isIPv6 host (.inr port) (some protocol)

/-- Embeds the tuple comparison of `ServerAddr.__eq__` (interface.py 470-475). -/
def SA.eqb (a b : SA) : Bool :=
  a.host == b.host && a.port == b.port && a.protocol == b.protocol

theorem validatePort_le (port : Int ⊕ List Char) (p : Nat)
    (h : validatePort port = some p) : p ≤ 65535 := by
  unfold validatePort at h
  split at h
  · split at h
    · rename_i hc
      injection h with h
      omega
    · exact absurd h (by simp)
  · split at h
    · split at h
      · rename_i hc
        injection h with h
        omega
      · exact absurd h (by simp)
    · exact absurd h (by simp)

/-- C7.  For every well-formed `ServerAddr` — any host, port and protocol
accepted by the constructor — parsing the printed form gives back an equal
(`__eq__`) address: `ServerAddr.from_str(str(addr)) == addr`.  The aiorpcx
`NetAddress` model is constrained only by its documented behaviour:
canonicalization is idempotent, and canonical hosts are non-empty and
bracket-free. -/
theorem serverAddr_from_str_roundtrip
    (canon : List Char → Option (List Char)) (isIPv6 : List Char → Bool)
    (hidem : ∀ h c, canon h = some c → canon c = some c)
    (hne : ∀ h c, canon h = some c → c ≠ [])
    (hnb : ∀ h c, canon h = some c → '[' ∉ c ∧ ']' ∉ c)
    (host0 : List Char) (port : Int ⊕ List Char) (protocol? : Option (List Char))
    (a : SA) (hmk : SA.make canon isIPv6 host0 port protocol? = .ok a) :
    ∃ b, SA.fromStr canon isIPv6 (SA.str a) = .ok b ∧ SA.eqb b a = true := by
  unfold SA.make at hmk
  split at hmk
  · exact absurd hmk (by simp)
  split at hmk
  · exact absurd hmk (by simp)
  rename_i ch hch
  split at hmk
  · exact absurd hmk (by simp)
  rename_i p hp
  split at hmk
  · exact absurd hmk (by simp)
  rename_i hprot
  injection hmk with hmk
  subst hmk
  have hPor : protocol?.getD ['s'] = ['t'] ∨ protocol?.getD ['s'] = ['s'] := by
    by_cases hT : protocol?.getD ['s'] = ['t']
    · exact Or.inl hT
    · by_cases hS : protocol?.getD ['s'] = ['s']
      · exact Or.inr hS
      · exact absurd ⟨hT, hS⟩ hprot
  have hPcolon : ':' ∉ protocol?.getD ['s'] := by
    rcases hPor with h | h <;> rw [h] <;> decide
  have hstr : SA.str ⟨ch, p, protocol?.getD ['s'], formatNetAddr isIPv6 ch p⟩
      = ((if isIPv6 ch then '[' :: ch ++ [']'] else ch) ++ ':' :: natToChars p)
        ++ ':' :: protocol?.getD ['s'] := by
    simp [SA.str, formatNetAddr]
  have hsplit2 : rsplit2Colon (SA.str ⟨ch, p, protocol?.getD ['s'], formatNetAddr isIPv6 ch p⟩)
      = some ((if isIPv6 ch then '[' :: ch ++ [']'] else ch), natToChars p,
              protocol?.getD ['s']) := by
    rw [hstr]
    simp only [rsplit2Colon, splitLastColon_append _ _ hPcolon,
               splitLastColon_append _ _ (colon_not_mem_natToChars p)]
  have hstrip : stripBrackets (if isIPv6 ch then '[' :: ch ++ [']'] else ch) = ch := by
    by_cases hv : isIPv6 ch
    · have hlast : ('[' :: ch ++ [']']).getLast? = some ']' := by
        rw [show ('[' :: ch ++ [']']) = ('[' :: ch) ++ [']'] by simp]
        exact List.getLast?_concat _
      rw [if_pos hv, stripBrackets, if_pos ⟨rfl, hlast⟩]
      simp
    · have hnobr : ¬ (ch.head? = some '[' ∧ ch.getLast? = some ']') := by
        rintro ⟨hh, -⟩
        have hmem : '[' ∈ ch := by
          cases ch with
          | nil => simp at hh
          | cons c cs =>
            simp at hh
            subst hh
            exact List.mem_cons_self _ _
        exact (hnb _ _ hch).1 hmem
      rw [if_neg hv, stripBrackets, if_neg hnobr]
  have hvp : validatePort (.inr (natToChars p)) = some p := by
    simp only [validatePort, charsToNat_natToChars]
    rw [if_pos (validatePort_le port p hp)]
  have hnonempty : (if isIPv6 ch then '[' :: ch ++ [']'] else ch) ≠ [] := by
    by_cases hv : isIPv6 ch
    · simp [hv]
    · simpa [hv] using hne _ _ hch
  refine ⟨⟨ch, p, protocol?.getD ['s'], formatNetAddr isIPv6 ch p⟩, ?_, by simp [SA.eqb]⟩
  unfold SA.fromStr
  rw [hsplit2]
  show SA.make canon isIPv6 (if isIPv6 ch then '[' :: ch ++ [']'] else ch)
      (.inr (natToChars p)) (some (protocol?.getD ['s'])) = .ok _
  simp only [SA.make, hnonempty, hstrip, hidem _ _ hch, hvp, Option.getD_some, hprot,
             if_false]

/-- Concrete `NetAddress` model for the round-trip witness: the single
canonical host `"h"`, never IPv6. -/
def canonW : List Char → Option (List Char) :=
  fun s => if s = ['h'] then some ['h'] else none

/-- Concrete IPv6 discriminator for the round-trip witness. -/
def ipv6W : List Char → Bool := fun _ => false

theorem canonW_eq (h c : List Char) (hc : canonW h = some c) : c = ['h'] := by
  unfold canonW at hc
  split at hc
  · injection hc with hc
    exact hc.symm
  · exact absurd hc (by simp)

/-- Witness for C7: round-trip at the concrete address `h:7:s`. -/
theorem serverAddr_from_str_roundtrip_example :
    ∃ b, SA.fromStr canonW ipv6W (SA.str ⟨['h'], 7, ['s'], ['h', ':', '7']⟩) = .ok b ∧
      SA.eqb b ⟨['h'], 7, ['s'], ['h', ':', '7']⟩ = true :=
  serverAddr_from_str_roundtrip canonW ipv6W
    (fun h c hc => by rw [canonW_eq h c hc]; rfl)
    (fun h c hc => by rw [canonW_eq h c hc]; simp)
    (fun h c hc => by rw [canonW_eq h c hc]; exact ⟨by decide, by decide⟩)
    ['h'] (.inl 7) none ⟨['h'], 7, ['s'], ['h', ':', '7']⟩ rfl

/-- A Python value compared against a `ServerAddr`: either another
`ServerAddr`, or a value of any other type (a bare tag). -/
inductive PyCmp where
  | ofSA (b : SA)
  | other (tag : Nat)

/-- Embeds `ServerAddr.__eq__` (interface.py 470-475): an `isinstance`
check — returning `False` for non-`ServerAddr` operands — then tuple
equality over `(host, port, protocol)`. -/
def SA.pyEq (a : SA) : PyCmp → Bool
  | .ofSA b => SA.eqb a b
  | .other _ => false

/-- Embeds `ServerAddr.__hash__` (interface.py 480-481):
`hash((self.host, self.port, self.protocol))`, with Python's opaque tuple
hash abstracted as the parameter `hashT`. -/
def saHash (hashT : List Char × Nat × List Char → Nat) (a : SA) : Nat :=
  hashT (a.host, a.port, a.protocol)

/-- C9.  `ServerAddr` equality is total and consistent with hashing:
`a == b` iff the `(host, port, protocol)` triples agree; `a == b` implies
`hash(a) == hash(b)`; and comparison against a value of any other type
returns `False` (the embedded `__eq__` is a total function). -/
theorem serverAddr_eq_hash_consistent
    (hashT : List Char × Nat × List Char → Nat) (a b : SA) (t : Nat) :
    (SA.pyEq a (.ofSA b) = true ↔
      a.host = b.host ∧ a.port = b.port ∧ a.protocol = b.protocol) ∧
    (SA.pyEq a (.ofSA b) = true → saHash hashT a = saHash hashT b) ∧
    SA.pyEq a (.other t) = false := by
  refine ⟨?_, ?_, rfl⟩
  · simp [SA.pyEq, SA.eqb, and_assoc]
  · intro h
    simp only [SA.pyEq, SA.eqb, Bool.and_eq_true, beq_iff_eq] at h
    obtain ⟨⟨h1, h2⟩, h3⟩ := h
    simp [saHash, h1, h2, h3]

/-- Witness for C9 at a concrete address, hash function and non-address
operand. -/
theorem serverAddr_eq_hash_consistent_example :
    SA.pyEq ⟨['h'], 7, ['s'], []⟩ (.other 0) = false ∧
    saHash (fun _ => 0) ⟨['h'], 7, ['s'], []⟩ = saHash (fun _ => 0) ⟨['h'], 7, ['s'], []⟩ :=
  ⟨(serverAddr_eq_hash_consistent (fun _ => 0) ⟨['h'], 7, ['s'], []⟩
      ⟨['h'], 7, ['s'], []⟩ 0).2.2,
   (serverAddr_eq_hash_consistent (fun _ => 0) ⟨['h'], 7, ['s'], []⟩
      ⟨['h'], 7, ['s'], []⟩ 0).2.1 (by decide)⟩

/-! ## NotificationSession (interface.py 147-253) -/

/-- The state of a `NotificationSession` relevant to `unsubscribe`: the
per-key subscriber lists (`self.subscriptions`, a dict of lists) and the
per-key result cache (`self.cache`). -/
structure SessionState (Q : Type) where
  subscriptions : List (List Char × List Q)
  cache : List (List Char × JVal)

/-- Embeds `NotificationSession.unsubscribe` (interface.py 218-224):
`for v in self.subscriptions.values(): if queue in v: v.remove(queue)`.
`list.remove` deletes the first occurrence; the membership guard makes the
loop total (no `ValueError`), and nothing else is touched. -/
def unsubscribe {Q : Type} [DecidableEq Q] (st : SessionState Q) (queue : Q) :
    SessionState Q :=
  { st with subscriptions :=
      st.subscriptions.map fun kv =>
        (kv.1, if queue ∈ kv.2 then kv.2.erase queue else kv.2) }

theorem zip_map_pair {A B : Type} (f : A → B) :
    ∀ (l : List A) (p : B × A), p ∈ (l.map f).zip l → p.1 = f p.2 := by
  intro l
  induction l with
  | nil =>
    intro p hp
    simp at hp
  | cons x xs ih =>
    intro p hp
    rw [List.map_cons, List.zip_cons_cons, List.mem_cons] at hp
    rcases hp with rfl | hp
    · rfl
    · exact ih p hp

/-- C10.  `unsubscribe` is total (no exception path exists in the embedded
function), leaves the result cache and the key set untouched, and maps each
subscriber list to the same list with the first occurrence of the given
queue removed: lists without the queue are unchanged, lengths never grow,
and the multiplicity of every other queue is preserved. -/
theorem unsubscribe_frame {Q : Type} [DecidableEq Q] (st : SessionState Q) (q : Q) :
    (unsubscribe st q).cache = st.cache ∧
    (unsubscribe st q).subscriptions.map Prod.fst = st.subscriptions.map Prod.fst ∧
    ∀ p ∈ (unsubscribe st q).subscriptions.zip st.subscriptions,
      p.1.2 = p.2.2.erase q ∧
      p.1.2.length ≤ p.2.2.length ∧
      (q ∉ p.2.2 → p.1.2 = p.2.2) ∧
      ∀ r, r ≠ q → p.1.2.count r = p.2.2.count r := by
  refine ⟨rfl, ?_, ?_⟩
  · show (st.subscriptions.map _).map Prod.fst = _
    rw [List.map_map]
    rfl
  · intro p hp
    have hp' : p ∈ (st.subscriptions.map
        (fun kv => (kv.1, if q ∈ kv.2 then kv.2.erase q else kv.2))).zip st.subscriptions := hp
    have h1 := zip_map_pair
      (fun kv => (kv.1, if q ∈ kv.2 then kv.2.erase q else kv.2)) st.subscriptions p hp'
    have hsnd : p.1.2 = if q ∈ p.2.2 then p.2.2.erase q else p.2.2 := by rw [h1]
    by_cases hq : q ∈ p.2.2
    · rw [if_pos hq] at hsnd
      refine ⟨hsnd, ?_, ?_, ?_⟩
      · rw [hsnd, List.length_erase_of_mem hq]
        omega
      · intro hnq
        exact absurd hq hnq
      · intro r hr
        rw [hsnd, List.count_erase_of_ne hr]
    · rw [if_neg hq] at hsnd
      refine ⟨?_, ?_, ?_, ?_⟩
      · rw [hsnd, List.erase_of_not_mem hq]
      · rw [hsnd]
      · intro _
        exact hsnd
      · intro r hr
        rw [hsnd]

/-- Witness for C10 at a concrete session state: cache and key set are
unchanged by unsubscribing queue `1`. -/
theorem unsubscribe_frame_example :
    (unsubscribe (⟨[(['k'], [1, 2])], []⟩ : SessionState Nat) 1).cache = [] ∧
    (unsubscribe (⟨[(['k'], [1, 2])], []⟩ : SessionState Nat) 1).subscriptions.map Prod.fst
      = [['k']] :=
  ⟨(unsubscribe_frame (⟨[(['k'], [1, 2])], []⟩ : SessionState Nat) 1).1,
   (unsubscribe_frame (⟨[(['k'], [1, 2])], []⟩ : SessionState Nat) 1).2.1⟩

/-! ## Interface.request_chunk_below_max_checkpoint (interface.py 835-855) -/

/-- Modelled from the spec: `CHUNK_SIZE` is imported from blockchain.py,
which is not among the provided sources; spec section 6 fixes it at 2016. -/
def CHUNK_SIZE : Nat := 2016

/-- Embeds `Interface.request_chunk_below_max_checkpoint` (835-855).
The network fetch and the blockchain store are passed in as data:
`fetchResult` is the outcome of the awaited `get_block_headers` call
(`.ok` or the exception it raised) and `connects` is the boolean returned
by `blockchain.connect_chunk`.  Returns the Python result, the final
`_requested_chunks` set, and whether a fetch was issued.  The `try/finally`
discards the chunk index from the set on every exit of the fetch. -/
def requestChunkBelowMaxCheckpoint (maxCp height : Int) (requested : Finset Nat)
    (fetchResult : Except IErr Unit) (connects : Bool) :
    Except IErr Unit × Finset Nat × Bool :=
  if ¬ 0 ≤ height then (.error .genericExn, requested, false)
  else if ¬ height ≤ maxCp then (.error .assertionErr, requested, false)
  else if height.toNat / CHUNK_SIZE ∈ requested then (.ok (), requested, false)
  else
    match fetchResult with
    | .error e =>
      (.error e, (insert (height.toNat / CHUNK_SIZE) requested).erase
        (height.toNat / CHUNK_SIZE), true)
    | .ok _ =>
      if connects then
        (.ok (), (insert (height.toNat / CHUNK_SIZE) requested).erase
          (height.toNat / CHUNK_SIZE), true)
      else
        (.error .requestCorrupted, (insert (height.toNat / CHUNK_SIZE) requested).erase
          (height.toNat / CHUNK_SIZE), true)

/-- C8.  Under the precondition `height ≤ max_checkpoint`: when the chunk
index is already in flight the call returns immediately with no request and
an unchanged set; otherwise — on a normal return, on `RequestCorrupted`
from a non-connecting chunk, and on any exception during the fetch — the
chunk index is absent from `_requested_chunks` afterwards. -/
theorem requestChunk_inflight_marker (maxCp height : Int) (requested : Finset Nat)
    (fetchResult : Except IErr Unit) (connects : Bool)
    (h0 : 0 ≤ height) (hcp : height ≤ maxCp) :
    (height.toNat / CHUNK_SIZE ∈ requested →
      requestChunkBelowMaxCheckpoint maxCp height requested fetchResult connects
        = (.ok (), requested, false)) ∧
    (height.toNat / CHUNK_SIZE ∉ requested →
      height.toNat / CHUNK_SIZE ∉
        (requestChunkBelowMaxCheckpoint maxCp height requested fetchResult connects).2.1) := by
  constructor
  · intro hmem
    simp [requestChunkBelowMaxCheckpoint, h0, hcp, hmem]
  · intro hmem
    cases fetchResult with
    | error e => simp [requestChunkBelowMaxCheckpoint, h0, hcp, hmem]
    | ok u =>
      by_cases hc : connects <;>
        simp [requestChunkBelowMaxCheckpoint, h0, hcp, hmem, hc]

/-- Witness for C8: fresh chunk index at height 5, successful fetch and
connect; the index is not in the in-flight set afterwards. -/
theorem requestChunk_inflight_marker_example :
    (5:Int).toNat / CHUNK_SIZE ∉
      (requestChunkBelowMaxCheckpoint 10 5 ∅ (.ok ()) true).2.1 :=
  (requestChunk_inflight_marker 10 5 ∅ (.ok ()) true (by decide) (by decide)).2 (by decide)

/-! ## Interface.get_estimatefee (interface.py 1426-1456) -/

/-- Modelled from the spec: `COIN` is imported from bitcoin.py, which is not
among the provided sources; it is the number of satoshi in one BTC,
10^8 (spec section 4.6 describes the conversion from BTC/kB to sat/kB). -/
def COIN : Int := 100000000

/-- `JSONRPC.INTERNAL_ERROR`, the standard JSON-RPC 2.0 code. -/
def INTERNAL_ERROR : Int := -32603

/-- Outcome of `session.send_request('blockchain.estimatefee', [n])`:
a successful result, an aiorpcx `ProtocolError` carrying a message, or an
`RPCError` carrying a code. -/
inductive SReply where
  | srOk (v : JVal)
  | srProtocolError (msg : List Char)
  | srRpcError (code : Int)

/-- Whether `pat` is an initial segment of `l`. -/
def startsWithSeq : List Char → List Char → Bool
  | [], _ => true
  | _ :: _, [] => false
  | p :: ps, c :: cs => p == c && startsWithSeq ps cs

/-- Python substring test `pat in s`. -/
def containsSeq (pat : List Char) : List Char → Bool
  | [] => startsWithSeq pat []
  | c :: rest => startsWithSeq pat (c :: rest) || containsSeq pat rest

/-- Python numeric equality `res == -1`: true for the int `-1` and the
float `-1.0`, false for every non-number. -/
def jvalEqNegOne : JVal → Bool
  | .jint n => n == -1
  | .jfloat q => q == -1
  | _ => false

/-- `int(res * COIN)` on a non-negative int-or-float (`int()` truncates
toward zero, which on non-negative values is the floor). -/
def toSatPerKB : JVal → JVal
  | .jint n => .jint (n * COIN)
  | .jfloat q => .jint ⌊q * (COIN : Rat)⌋
  | v => v

def cannotEstimateMsg : List Char := "cannot estimate fee".toList

/-- The shared post-processing of `get_estimatefee` (interface.py
1452-1456): `if res != -1: assert_non_negative_int_or_float(res);
res = int(res * COIN)`. -/
def estimateFeePost (res : JVal) : Except IErr JVal :=
  if jvalEqNegOne res then .ok res
  else if ¬ isNonNegIntOrFloatV res then .error .requestCorrupted
  else .ok (toSatPerKB res)

/-- Embeds `Interface.get_estimatefee` (interface.py 1426-1456). -/
def getEstimatefee (numBlocks : Int) (reply : SReply) : Except IErr JVal :=
  if ¬ 0 ≤ numBlocks then .error .genericExn
  else
    match reply with
    | .srOk v => estimateFeePost v
    | .srProtocolError msg =>
      if containsSeq cannotEstimateMsg msg then estimateFeePost (.jint (-1))
      else .error .protocolErr
    | .srRpcError code =>
      if code = INTERNAL_ERROR then estimateFeePost (.jint (-1))
      else .error (.rpcErr code)

/-- Counterexample for C6.  At the successful server result `-1` — which is
not a non-negative int-or-float — the claim as stated requires
`RequestCorrupted`, but the code's `if res != -1` guard (interface.py 1453)
returns the value unchanged. -/
theorem getEstimatefee_minus_one_passthrough :
    getEstimatefee 2 (.srOk (.jint (-1))) = .ok (.jint (-1)) ∧
    isNonNegIntOrFloatV (.jint (-1)) = false ∧
    getEstimatefee 2 (.srOk (.jint (-1))) ≠ .error .requestCorrupted := by
  refine ⟨rfl, rfl, fun h => ?_⟩
  rw [show getEstimatefee 2 (.srOk (.jint (-1))) = .ok (.jint (-1)) from rfl] at h
  exact Except.noConfusion h

/-- C6 (amended).  For non-negative `num_blocks`, `get_estimatefee` returns
`-1` when the server answers with a protocol error whose message contains
"cannot estimate fee" or with an RPC error of code `INTERNAL_ERROR`; a
successful numeric result equal to `-1` — the protocol's own
could-not-estimate marker — is returned unchanged; every other successful
server result must be a non-negative int-or-float (else `RequestCorrupted`)
and is returned converted to sat/kB by multiplying by `COIN` and truncating
to int. -/
theorem getEstimatefee_behavior (numBlocks : Int) (h : 0 ≤ numBlocks)
    (msg : List Char) (v : JVal) :
    (containsSeq cannotEstimateMsg msg = true →
      getEstimatefee numBlocks (.srProtocolError msg) = .ok (.jint (-1))) ∧
    getEstimatefee numBlocks (.srRpcError INTERNAL_ERROR) = .ok (.jint (-1)) ∧
    (jvalEqNegOne v = true → getEstimatefee numBlocks (.srOk v) = .ok v) ∧
    (jvalEqNegOne v = false → isNonNegIntOrFloatV v = false →
      getEstimatefee numBlocks (.srOk v) = .error .requestCorrupted) ∧
    (jvalEqNegOne v = false → isNonNegIntOrFloatV v = true →
      getEstimatefee numBlocks (.srOk v) = .ok (toSatPerKB v)) := by
  refine ⟨?_, ?_, ?_, ?_, ?_⟩
  · intro hc
    simp [getEstimatefee, h, hc]
    rfl
  · simp [getEstimatefee, h, INTERNAL_ERROR]
    rfl
  · intro hneg
    simp [getEstimatefee, h, estimateFeePost, hneg]
  · intro hneg hnn
    simp [getEstimatefee, h, estimateFeePost, hneg, hnn]
  · intro hneg hnn
    simp [getEstimatefee, h, estimateFeePost, hneg, hnn]

/-- Witness for C6 (amended) at concrete inputs: the `INTERNAL_ERROR`
fallback yields `-1`, and the successful result `1` BTC/kB converts to
`10^8` sat/kB. -/
theorem getEstimatefee_behavior_example :
    getEstimatefee 2 (.srRpcError INTERNAL_ERROR) = .ok (.jint (-1)) ∧
    getEstimatefee 2 (.srOk (.jint 1)) = .ok (.jint 100000000) :=
  ⟨(getEstimatefee_behavior 2 (by decide) [] (.jint 1)).2.1,
   (getEstimatefee_behavior 2 (by decide) [] (.jint 1)).2.2.2.2 rfl rfl⟩

/-! ## Interface.get_block_headers (interface.py 789-833) -/

/-- Modelled from the spec: `HEADER_SIZE` is imported from blockchain.py,
which is not among the provided sources; spec section 6 fixes it at 80. -/
def HEADER_SIZE : Nat := 80

/-- `MAX_NUM_HEADERS_PER_REQUEST` (interface.py line 79). -/
def MAX_NUM_HEADERS_PER_REQUEST : Nat := 2016

def countKey : List Char := "count".toList
def hexKey : List Char := "hex".toList
def maxKey : List Char := "max".toList

/-- Value of one hex digit (callers guarantee hex validity). -/
def hexVal (c : Char) : Nat :=
  if '0' ≤ c ∧ c ≤ '9' then c.toNat - 48
  else if 'a' ≤ c ∧ c ≤ 'f' then c.toNat - 87
  else if 'A' ≤ c ∧ c ≤ 'F' then c.toNat - 55
  else 0

/-- `bytes.fromhex` on strings already validated as hex. -/
def hexDecode : List Char → List Nat
  | c1 :: c2 :: rest => (16 * hexVal c1 + hexVal c2) :: hexDecode rest
  | _ => []

/-- `util.chunks`: consecutive `size`-element groups (fuelled so it reduces
in the kernel; fuel `l.length` always suffices when `size > 0`). -/
def chunksAux (size : Nat) : Nat → List Nat → List (List Nat)
  | 0, _ => []
  | _, [] => []
  | f + 1, l => l.take size :: chunksAux size f (l.drop size)

def chunksOf (size : Nat) (l : List Nat) : List (List Nat) :=
  chunksAux size l.length l

/-- The response-shape checks of `get_block_headers` (interface.py 811-831)
applied after the three `assert_dict_contains_field` calls, in source
order: `count` and `max` non-negative integers, `hex` a hex string,
`len(hex) == HEADER_SIZE * 2 * count`, `max ≥ MAX_NUM_HEADERS_PER_REQUEST`,
returned count not exceeding the requested one, and a short reply tolerated
only when the missing tail lies beyond `self.tip`. -/
def getBlockHeadersChecks (tip startHeight count : Int) (cnt hx mx : JVal) :
    Except IErr (List (List Nat)) :=
  if ¬ isNonNegIntV cnt then .error .requestCorrupted
  else if ¬ isNonNegIntV mx then .error .requestCorrupted
  else if ¬ isHexStrV hx then .error .requestCorrupted
  else if ((jstr' hx).length : Int) ≠ (HEADER_SIZE : Int) * 2 * jint' cnt then
    .error .requestCorrupted
  else if jint' mx < (MAX_NUM_HEADERS_PER_REQUEST : Int) then .error .requestCorrupted
  else if count < jint' cnt then .error .requestCorrupted
  else if jint' cnt < count ∧ startHeight + jint' cnt - 1 < tip then .error .requestCorrupted
  else .ok (chunksOf HEADER_SIZE (hexDecode (jstr' hx)))

/-- Embeds `Interface.get_block_headers` (interface.py 789-833).  `tip` is
the server-claimed `self.tip`; `res` the response value.  The two leading
argument checks raise bare `Exception`s; every response-shape violation
raises `RequestCorrupted`. -/
def getBlockHeaders (tip startHeight count : Int) (res : JVal) :
    Except IErr (List (List Nat)) :=
  if ¬ 0 ≤ startHeight then .error .genericExn
  else if ¬ (0 ≤ count ∧ 0 < count ∧ count ≤ (MAX_NUM_HEADERS_PER_REQUEST : Int)) then
    .error .genericExn
  else
    match dictField res countKey with
    | .error e => .error e
    | .ok cnt =>
      match dictField res hexKey with
      | .error e => .error e
      | .ok hx =>
        match dictField res maxKey with
        | .error e => .error e
        | .ok mx => getBlockHeadersChecks tip startHeight count cnt hx mx

/-- The acceptance conditions of C2, phrased on the response value. -/
def headersAccepted (tip startHeight count : Int) (res : JVal) : Prop :=
  ∃ rc rm s,
    dictField res countKey = .ok (.jint rc) ∧ 0 ≤ rc ∧
    dictField res maxKey = .ok (.jint rm) ∧ (MAX_NUM_HEADERS_PER_REQUEST : Int) ≤ rm ∧
    dictField res hexKey = .ok (.jstr s) ∧ isHexStr s = true ∧
    (s.length : Int) = (HEADER_SIZE : Int) * 2 * rc ∧
    rc ≤ count ∧
    (rc < count → tip ≤ startHeight + rc - 1)

theorem dictField_error (v : JVal) (k : List Char) (e : IErr)
    (h : dictField v k = .error e) : e = .requestCorrupted := by
  unfold dictField at h
  split at h
  · split at h
    · exact absurd h (by simp)
    · injection h with h
      exact h.symm
  · injection h with h
    exact h.symm

theorem isNonNegIntV_shape (v : JVal) (h : isNonNegIntV v = true) :
    ∃ n, v = .jint n ∧ 0 ≤ n := by
  cases v <;> simp_all [isNonNegIntV]

theorem isHexStrV_shape (v : JVal) (h : isHexStrV v = true) :
    ∃ s, v = .jstr s ∧ isHexStr s = true := by
  cases v <;> simp_all [isHexStrV]

theorem getBlockHeaders_eval (tip startHeight count : Int) (res cnt hx mx : JVal)
    (h1 : 0 ≤ startHeight) (h2 : 0 < count) (h3 : count ≤ (MAX_NUM_HEADERS_PER_REQUEST : Int))
    (hc : dictField res countKey = .ok cnt)
    (hh : dictField res hexKey = .ok hx)
    (hm : dictField res maxKey = .ok mx) :
    getBlockHeaders tip startHeight count res
      = getBlockHeadersChecks tip startHeight count cnt hx mx := by
  unfold getBlockHeaders
  rw [if_neg (not_not_intro h1), if_neg (not_not_intro ⟨by omega, h2, h3⟩), hc, hh, hm]

theorem getBlockHeaders_evalErr (tip startHeight count : Int) (res : JVal)
    (h1 : 0 ≤ startHeight) (h2 : 0 < count) (h3 : count ≤ (MAX_NUM_HEADERS_PER_REQUEST : Int))
    (herr : dictField res countKey = .error .requestCorrupted ∨
      dictField res hexKey = .error .requestCorrupted ∨
      dictField res maxKey = .error .requestCorrupted) :
    getBlockHeaders tip startHeight count res = .error .requestCorrupted := by
  unfold getBlockHeaders
  rw [if_neg (not_not_intro h1), if_neg (not_not_intro ⟨by omega, h2, h3⟩)]
  cases hc : dictField res countKey with
  | error e =>
    have he := dictField_error res countKey e hc
    subst he
    rfl
  | ok cnt =>
    cases hh : dictField res hexKey with
    | error e =>
      have he := dictField_error res hexKey e hh
      subst he
      rfl
    | ok hx =>
      cases hm : dictField res maxKey with
      | error e =>
        have he := dictField_error res maxKey e hm
        subst he
        rfl
      | ok mx =>
        rcases herr with h | h | h
        · rw [hc] at h; exact absurd h (by simp)
        · rw [hh] at h; exact absurd h (by simp)
        · rw [hm] at h; exact absurd h (by simp)

theorem getBlockHeadersChecks_ok (tip startHeight count rc rm : Int) (s : List Char)
    (hrc : 0 ≤ rc) (hrm : (MAX_NUM_HEADERS_PER_REQUEST : Int) ≤ rm)
    (hhex : isHexStr s = true) (hlen : (s.length : Int) = (HEADER_SIZE : Int) * 2 * rc)
    (hle : rc ≤ count) (htip : rc < count → tip ≤ startHeight + rc - 1) :
    getBlockHeadersChecks tip startHeight count (.jint rc) (.jstr s) (.jint rm)
      = .ok (chunksOf HEADER_SIZE (hexDecode s)) := by
  have c1 : ¬¬ (isNonNegIntV (.jint rc) = true) :=
    not_not_intro (by simpa [isNonNegIntV] using hrc)
  have c2 : ¬¬ (isNonNegIntV (.jint rm) = true) :=
    not_not_intro (by simp [isNonNegIntV]; omega)
  have c3 : ¬¬ (isHexStrV (.jstr s) = true) :=
    not_not_intro (by simpa [isHexStrV] using hhex)
  have c4 : ¬ (((jstr' (.jstr s)).length : Int) ≠ (HEADER_SIZE : Int) * 2 * jint' (.jint rc)) :=
    not_not_intro (by simpa [jstr', jint'] using hlen)
  have c5 : ¬ (jint' (.jint rm) < (MAX_NUM_HEADERS_PER_REQUEST : Int)) := by
    simp only [jint']
    omega
  have c6 : ¬ (count < jint' (.jint rc)) := by
    simp only [jint']
    omega
  have c7 : ¬ (jint' (.jint rc) < count ∧ startHeight + jint' (.jint rc) - 1 < tip) := by
    simp only [jint']
    rintro ⟨ha, hb⟩
    exact absurd (htip ha) (by omega)
  unfold getBlockHeadersChecks
  rw [if_neg c1, if_neg c2, if_neg c3, if_neg c4, if_neg c5, if_neg c6, if_neg c7]
  rfl

/-- C2.  Under the documented precondition `0 < count ≤ 2016` (and a valid
`start_height`), a server response to `get_block_headers` is accepted
exactly when it is a dict with integer fields `count ≥ 0` and
`max ≥ 2016`, a hex field `hex` whose decoded length is `80·count` bytes,
a returned count not exceeding the requested one, and — when it is
smaller — an end height `start_height + count − 1` not below `self.tip`;
every violation raises `RequestCorrupted`. -/
theorem getBlockHeaders_accepts_iff (tip startHeight count : Int) (res : JVal)
    (h1 : 0 ≤ startHeight) (h2 : 0 < count)
    (h3 : count ≤ (MAX_NUM_HEADERS_PER_REQUEST : Int)) :
    ((∃ hs, getBlockHeaders tip startHeight count res = .ok hs) ↔
      headersAccepted tip startHeight count res) ∧
    (¬ headersAccepted tip startHeight count res →
      getBlockHeaders tip startHeight count res = .error .requestCorrupted) := by
  have herr : ¬ headersAccepted tip startHeight count res →
      getBlockHeaders tip startHeight count res = .error .requestCorrupted := by
    intro hA
    cases hc : dictField res countKey with
    | error e =>
      have he := dictField_error res countKey e hc
      subst he
      exact getBlockHeaders_evalErr tip startHeight count res h1 h2 h3 (Or.inl hc)
    | ok cnt =>
      cases hh : dictField res hexKey with
      | error e =>
        have he := dictField_error res hexKey e hh
        subst he
        exact getBlockHeaders_evalErr tip startHeight count res h1 h2 h3 (Or.inr (Or.inl hh))
      | ok hx =>
        cases hm : dictField res maxKey with
        | error e =>
          have he := dictField_error res maxKey e hm
          subst he
          exact getBlockHeaders_evalErr tip startHeight count res h1 h2 h3 (Or.inr (Or.inr hm))
        | ok mx =>
          rw [getBlockHeaders_eval tip startHeight count res cnt hx mx h1 h2 h3 hc hh hm]
          unfold getBlockHeadersChecks
          split_ifs with b1 b2 b3 b4 b5 b6 b7
          all_goals try rfl
          exfalso
          apply hA
          rw [not_not] at b4
          obtain ⟨rc, rfl, hrc⟩ := isNonNegIntV_shape cnt b1
          obtain ⟨rm, rfl, hrm0⟩ := isNonNegIntV_shape mx b2
          obtain ⟨s, rfl, hhex⟩ := isHexStrV_shape hx b3
          simp only [jint', jstr'] at b4 b5 b6 b7
          refine ⟨rc, rm, s, hc, hrc, hm, by omega, hh, hhex, b4, by omega, fun hlt => ?_⟩
          by_contra hq
          exact b7 ⟨hlt, by omega⟩
  refine ⟨⟨?_, ?_⟩, herr⟩
  · rintro ⟨hs, hok⟩
    by_contra hA
    rw [herr hA] at hok
    exact Except.noConfusion hok
  · intro hA
    obtain ⟨rc, rm, s, hc, hrc, hm, hrm, hh, hhex, hlen, hle, htip⟩ := hA
    refine ⟨chunksOf HEADER_SIZE (hexDecode s), ?_⟩
    rw [getBlockHeaders_eval tip startHeight count res _ _ _ h1 h2 h3 hc hh hm]
    exact getBlockHeadersChecks_ok tip startHeight count rc rm s hrc hrm hhex hlen hle htip

/-- A concrete well-formed response: one header of 160 hex chars. -/
def resW : JVal :=
  .jdict [(countKey, .jint 1), (hexKey, .jstr (List.replicate 160 'a')),
          (maxKey, .jint 2016)]

set_option maxRecDepth 4000 in
/-- Witness for C2: the concrete response `resW` to a request for one header
at height 0 (tip 0) is accepted. -/
theorem getBlockHeaders_accepts_iff_example :
    ∃ hs, getBlockHeaders 0 0 1 resW = .ok hs :=
  (getBlockHeaders_accepts_iff 0 0 1 resW (by decide) (by decide) (by decide)).1.mpr
    ⟨1, 2016, List.replicate 160 'a', rfl, by decide, rfl, by decide, rfl, by decide,
     by decide, by decide, by omega⟩

/-! ## Interface.get_history_for_scripthash (interface.py 1299-1327) -/

def heightKey : List Char := "height".toList
def txHashKey : List Char := "tx_hash".toList
def feeKey : List Char := "fee".toList

/-- The running `prev_height` of the history loop: the integer it starts
from (1), or the `float("inf")` sentinel set once a mempool item is seen. -/
inductive PrevH where
  | fin (n : Int)
  | inf

/-- The `for tx_item in res` loop of `get_history_for_scripthash`
(interface.py 1306-1320), threading `prev_height`.  Mempool items
(height −1 or 0) must carry a non-negative integer fee and set
`prev_height` to `inf`, after which any confirmed item fails the
monotonicity check `height < prev_height`. -/
def histLoop : PrevH → List JVal → Except IErr Unit
  | _, [] => .ok ()
  | prev, item :: rest =>
    match dictField item heightKey with
    | .error e => .error e
    | .ok hv =>
      match dictField item txHashKey with
      | .error e => .error e
      | .ok thv =>
        if ¬ isIntegerV hv then .error .requestCorrupted
        else if ¬ isHash256StrV thv then .error .requestCorrupted
        else if jint' hv = -1 ∨ jint' hv = 0 then
          match dictField item feeKey with
          | .error e => .error e
          | .ok fv =>
            if ¬ isNonNegIntV fv then .error .requestCorrupted
            else histLoop .inf rest
        else
          match prev with
          | .inf => .error .requestCorrupted
          | .fin p =>
            if jint' hv < p then .error .requestCorrupted
            else histLoop (.fin (jint' hv)) rest

/-- Embeds `Interface.get_history_for_scripthash` (interface.py 1299-1327):
list-shape check, the validation loop from `prev_height = 1`, then the
txid-uniqueness check `len(set(tx_hashes)) == len(res)`, returning the
response list unchanged. -/
def getHistoryForScripthash (sh : List Char) (res : JVal) : Except IErr (List JVal) :=
  if ¬ isHash256Str sh then .error .genericExn
  else
    match res with
    | .jlist items =>
      match histLoop (.fin 1) items with
      | .error e => .error e
      | .ok _ =>
        if (items.map (fun it => jstr' (dictFieldD it txHashKey))).dedup.length
            ≠ items.length then .error .requestCorrupted
        else .ok items
    | _ => .error .requestCorrupted

/-- The height an item carries (0 when absent — never hit on valid items). -/
def itemHeight (it : JVal) : Int := jint' (dictFieldD it heightKey)

/-- The txid an item carries. -/
def itemTxHash (it : JVal) : List Char := jstr' (dictFieldD it txHashKey)

/-- Whether an item is unconfirmed (mempool): height −1 or 0. -/
def isUnconfItem (it : JVal) : Prop := itemHeight it = -1 ∨ itemHeight it = 0

/-- A well-shaped history item: integer height and hash256 txid. -/
def histItemOk (it : JVal) : Prop :=
  ∃ h tx, dictField it heightKey = .ok (.jint h) ∧
    dictField it txHashKey = .ok (.jstr tx) ∧ isHash256Str tx = true

/-- A well-shaped mempool fee: present and a non-negative integer. -/
def histFeeOk (it : JVal) : Prop :=
  ∃ f, dictField it feeKey = .ok (.jint f) ∧ 0 ≤ f

theorem dictFieldD_eq (v : JVal) (k : List Char) (x : JVal)
    (h : dictField v k = .ok x) : dictFieldD v k = x := by
  simp [dictFieldD, h]

theorem isIntegerV_shape (v : JVal) (h : isIntegerV v = true) : ∃ n, v = .jint n := by
  cases v <;> simp_all [isIntegerV]

theorem isHash256StrV_shape (v : JVal) (h : isHash256StrV v = true) :
    ∃ s, v = .jstr s ∧ isHash256Str s = true := by
  cases v <;> simp_all [isHash256StrV]

/-- One step of the history loop: a successful run on `item :: rest` means
the item is well-shaped and either it is a mempool item with a valid fee and
the loop continues with `prev = inf`, or it is confirmed, bounded below by
the incoming finite `prev`, and the loop continues from its height. -/
theorem histLoop_cons (prev : PrevH) (x : JVal) (rest : List JVal)
    (h : histLoop prev (x :: rest) = .ok ()) :
    histItemOk x ∧
    ((isUnconfItem x ∧ histFeeOk x ∧ histLoop .inf rest = .ok ()) ∨
     (¬ isUnconfItem x ∧ (∃ p, prev = .fin p ∧ p ≤ itemHeight x) ∧
        histLoop (.fin (itemHeight x)) rest = .ok ())) := by
  unfold histLoop at h
  split at h
  · exact absurd h (by simp)
  rename_i hv hveq
  split at h
  · exact absurd h (by simp)
  rename_i thv thveq
  split at h
  · exact absurd h (by simp)
  rename_i hint
  split at h
  · exact absurd h (by simp)
  rename_i hhash
  rw [not_not] at hint hhash
  obtain ⟨hn, rfl⟩ := isIntegerV_shape hv hint
  obtain ⟨tx, rfl, htx⟩ := isHash256StrV_shape thv hhash
  have hH : itemHeight x = hn := by
    rw [itemHeight, dictFieldD_eq x heightKey _ hveq]
    rfl
  have hOk : histItemOk x := ⟨hn, tx, hveq, thveq, htx⟩
  refine ⟨hOk, ?_⟩
  split at h
  · rename_i hunc
    split at h
    · exact absurd h (by simp)
    rename_i fv fveq
    split at h
    · exact absurd h (by simp)
    rename_i hfee
    rw [not_not] at hfee
    obtain ⟨fn, rfl, hfn⟩ := isNonNegIntV_shape fv hfee
    refine Or.inl ⟨?_, ⟨fn, fveq, hfn⟩, h⟩
    rw [isUnconfItem, hH]
    simpa [jint'] using hunc
  · rename_i hconf
    split at h
    · exact absurd h (by simp)
    rename_i p
    split at h
    · exact absurd h (by simp)
    rename_i hmono
    refine Or.inr ⟨?_, ⟨p, rfl, ?_⟩, ?_⟩
    · rw [isUnconfItem, hH]
      simpa [jint'] using hconf
    · rw [hH]
      simpa [jint'] using hmono
    · rw [hH]
      exact h

theorem pairwise_of_all {α : Type} {P : α → Prop} {R : α → α → Prop}
    (l : List α) (hall : ∀ a ∈ l, P a) (hR : ∀ a b, P a → P b → R a b) :
    List.Pairwise R l := by
  induction l with
  | nil => exact List.Pairwise.nil
  | cons x xs ih =>
    refine List.Pairwise.cons ?_ (ih (fun a ha => hall a (List.mem_cons_of_mem _ ha)))
    intro b hb
    exact hR x b (hall x (List.mem_cons_self x xs)) (hall b (List.mem_cons_of_mem _ hb))

/-- After the `prev_height = inf` sentinel, a successful run means every
remaining item is a well-shaped mempool item with a valid fee. -/
theorem histLoop_inf : ∀ items : List JVal, histLoop .inf items = .ok () →
    ∀ it ∈ items, histItemOk it ∧ isUnconfItem it ∧ histFeeOk it := by
  intro items
  induction items with
  | nil =>
    intro _ it hit
    simp at hit
  | cons x rest ih =>
    intro h it hit
    obtain ⟨hOk, hcase⟩ := histLoop_cons .inf x rest h
    rcases hcase with ⟨hunc, hfee, hrest⟩ | ⟨-, ⟨p, hp, -⟩, -⟩
    · rcases List.mem_cons.mp hit with rfl | hit
      · exact ⟨hOk, hunc, hfee⟩
      · exact ih hrest it hit
    · exact absurd hp (by simp)

/-- Invariant of the history loop started from a finite `prev_height`:
every item is well-shaped, every mempool item carries a valid fee,
confirmed heights are bounded below by `prev_height`, and the pairwise
ordering of C3 holds: confirmed heights never decrease and no confirmed
item follows a mempool item. -/
theorem histLoop_fin : ∀ (items : List JVal) (p : Int),
    histLoop (.fin p) items = .ok () →
    (∀ it ∈ items, histItemOk it) ∧
    (∀ it ∈ items, isUnconfItem it → histFeeOk it) ∧
    (∀ it ∈ items, ¬ isUnconfItem it → p ≤ itemHeight it) ∧
    List.Pairwise (fun a b =>
      (¬ isUnconfItem a → ¬ isUnconfItem b → itemHeight a ≤ itemHeight b) ∧
      (isUnconfItem a → isUnconfItem b)) items := by
  intro items
  induction items with
  | nil =>
    intro p _
    exact ⟨by simp, by simp, by simp, List.Pairwise.nil⟩
  | cons x rest ih =>
    intro p h
    obtain ⟨hOk, hcase⟩ := histLoop_cons (.fin p) x rest h
    rcases hcase with ⟨hunc, hfee, hrest⟩ | ⟨hconf, ⟨q, hq, hqle⟩, hrest⟩
    · have hall := histLoop_inf rest hrest
      refine ⟨?_, ?_, ?_, ?_⟩
      · intro it hit
        rcases List.mem_cons.mp hit with rfl | hit
        · exact hOk
        · exact (hall it hit).1
      · intro it hit _
        rcases List.mem_cons.mp hit with rfl | hit
        · exact hfee
        · exact (hall it hit).2.2
      · intro it hit hcf
        rcases List.mem_cons.mp hit with rfl | hit
        · exact absurd hunc hcf
        · exact absurd (hall it hit).2.1 hcf
      · refine List.Pairwise.cons ?_ ?_
        · intro b hb
          exact ⟨fun hca _ => absurd hunc hca, fun _ => (hall b hb).2.1⟩
        · exact pairwise_of_all rest (fun a ha => (hall a ha).2.1)
            (fun a b ha hb => ⟨fun hca _ => absurd ha hca, fun _ => hb⟩)
    · injection hq with hq
      subst hq
      obtain ⟨ihOk, ihFee, ihBound, ihPair⟩ := ih (itemHeight x) hrest
      refine ⟨?_, ?_, ?_, ?_⟩
      · intro it hit
        rcases List.mem_cons.mp hit with rfl | hit
        · exact hOk
        · exact ihOk it hit
      · intro it hit hu
        rcases List.mem_cons.mp hit with rfl | hit
        · exact absurd hu hconf
        · exact ihFee it hit hu
      · intro it hit hcf
        rcases List.mem_cons.mp hit with rfl | hit
        · exact hqle
        · exact le_trans hqle (ihBound it hit hcf)
      · refine List.Pairwise.cons ?_ ihPair
        intro b hb
        constructor
        · intro _ hcb
          exact ihBound b hb hcb
        · intro hu
          exact absurd hu hconf

theorem dedup_length_eq_iff {α : Type} [DecidableEq α] (l : List α) :
    l.dedup.length = l.length ↔ l.Nodup := by
  constructor
  · intro h
    have hsub : List.Sublist l.dedup l := List.dedup_sublist l
    have heq := hsub.eq_of_length h
    rw [← heq]
    exact List.nodup_dedup l
  · intro h
    rw [List.Nodup.dedup h]

/-- The invariants C3 states on a history list. -/
def historyOkList (items : List JVal) : Prop :=
  (∀ it ∈ items, histItemOk it) ∧
  (∀ it ∈ items, isUnconfItem it → histFeeOk it) ∧
  List.Pairwise (fun a b =>
    (¬ isUnconfItem a → ¬ isUnconfItem b → itemHeight a ≤ itemHeight b) ∧
    (isUnconfItem a → isUnconfItem b)) items ∧
  (items.map itemTxHash).Nodup

/-- Forward direction: every list returned by `get_history_for_scripthash`
is the response list itself and satisfies the C3 invariants. -/
theorem getHistory_ok_props (sh : List Char) (res : JVal)
    (items : List JVal) (h : getHistoryForScripthash sh res = .ok items) :
    res = .jlist items ∧ historyOkList items := by
  unfold getHistoryForScripthash at h
  split at h
  · exact absurd h (by simp)
  split at h
  · rename_i items0
    split at h
    · exact absurd h (by simp)
    rename_i u hloop
    cases u
    split at h
    · exact absurd h (by simp)
    rename_i hdedup
    rw [not_not] at hdedup
    injection h with h
    subst h
    obtain ⟨hOk, hFee, _, hPair⟩ := histLoop_fin items0 1 hloop
    refine ⟨rfl, hOk, hFee, hPair, ?_⟩
    rw [show items0.map itemTxHash
        = items0.map (fun it => jstr' (dictFieldD it txHashKey)) from rfl]
    have := (dedup_length_eq_iff
      (items0.map (fun it => jstr' (dictFieldD it txHashKey)))).mp
    apply this
    rw [List.length_map]
    exact hdedup
  · exact absurd h (by simp)

/-- Every failure of the history loop is a `RequestCorrupted`: field
lookups fail with it, and every explicit check in the loop raises it. -/
theorem histLoop_err : ∀ (items : List JVal) (prev : PrevH) (e : IErr),
    histLoop prev items = .error e → e = .requestCorrupted := by
  intro items
  induction items with
  | nil =>
    intro prev e h
    exact absurd h (by simp [histLoop])
  | cons x rest ih =>
    intro prev e h
    unfold histLoop at h
    split at h
    · rename_i e2 hdf
      injection h with h
      rw [← h]
      exact dictField_error x heightKey e2 hdf
    rename_i hv hveq
    split at h
    · rename_i e2 hdf
      injection h with h
      rw [← h]
      exact dictField_error x txHashKey e2 hdf
    rename_i thv thveq
    split at h
    · injection h with h
      exact h.symm
    split at h
    · injection h with h
      exact h.symm
    split at h
    · split at h
      · rename_i e2 hdf
        injection h with h
        rw [← h]
        exact dictField_error x feeKey e2 hdf
      rename_i fv fveq
      split at h
      · injection h with h
        exact h.symm
      · exact ih .inf e h
    · split at h
      · injection h with h
        exact h.symm
      rename_i p
      split at h
      · injection h with h
        exact h.symm
      · exact ih (.fin (jint' hv)) e h

theorem getHistory_eval_list (sh : List Char) (items : List JVal)
    (hsh : isHash256Str sh = true) :
    getHistoryForScripthash sh (.jlist items)
      = (match histLoop (.fin 1) items with
         | .error e => .error e
         | .ok _ =>
           if (items.map (fun it => jstr' (dictFieldD it txHashKey))).dedup.length
               ≠ items.length then .error .requestCorrupted
           else .ok items) := by
  unfold getHistoryForScripthash
  rw [if_neg (not_not_intro hsh)]

/-- For a valid scripthash, `get_history_for_scripthash` either returns a
list or fails with `RequestCorrupted` — no other outcome exists. -/
theorem getHistory_ok_or_rc (sh : List Char) (res : JVal)
    (hsh : isHash256Str sh = true) :
    (∃ items, getHistoryForScripthash sh res = .ok items) ∨
    getHistoryForScripthash sh res = .error .requestCorrupted := by
  cases res with
  | jlist items =>
    rw [getHistory_eval_list sh items hsh]
    cases hl : histLoop (.fin 1) items with
    | error e =>
      have he := histLoop_err items (.fin 1) e hl
      subst he
      right
      rfl
    | ok u =>
      cases u
      by_cases hd : (items.map (fun it => jstr' (dictFieldD it txHashKey))).dedup.length
          ≠ items.length
      · right
        simp [hd]
      · left
        exact ⟨items, by simp [hd]⟩
  | jint n =>
    exact Or.inr (by unfold getHistoryForScripthash; rw [if_neg (not_not_intro hsh)])
  | jfloat q =>
    exact Or.inr (by unfold getHistoryForScripthash; rw [if_neg (not_not_intro hsh)])
  | jstr s =>
    exact Or.inr (by unfold getHistoryForScripthash; rw [if_neg (not_not_intro hsh)])
  | jdict kvs =>
    exact Or.inr (by unfold getHistoryForScripthash; rw [if_neg (not_not_intro hsh)])
  | jnull =>
    exact Or.inr (by unfold getHistoryForScripthash; rw [if_neg (not_not_intro hsh)])

/-- C3.  Every list returned by `get_history_for_scripthash` consists of
well-shaped items (integer `height`, hash256 `tx_hash`); every mempool item
(height −1 or 0) carries a non-negative integer `fee`; confirmed heights
are non-decreasing along the list and no confirmed item follows a mempool
item; all txids are pairwise distinct; and any server response violating
one of these — a non-list response, or a list breaking an invariant —
raises `RequestCorrupted` instead of being returned. -/
theorem getHistoryForScripthash_validated (sh : List Char) (res : JVal)
    (hsh : isHash256Str sh = true) :
    (∀ items, getHistoryForScripthash sh res = .ok items →
      res = .jlist items ∧ historyOkList items) ∧
    ((¬ ∃ items, res = .jlist items) →
      getHistoryForScripthash sh res = .error .requestCorrupted) ∧
    (∀ items, res = .jlist items → ¬ historyOkList items →
      getHistoryForScripthash sh res = .error .requestCorrupted) := by
  refine ⟨fun items hok => getHistory_ok_props sh res items hok, ?_, ?_⟩
  · intro hnl
    rcases getHistory_ok_or_rc sh res hsh with ⟨items2, hok⟩ | hrc
    · obtain ⟨hje, -⟩ := getHistory_ok_props sh res items2 hok
      exact absurd ⟨items2, hje⟩ hnl
    · exact hrc
  · intro items heq hbad
    subst heq
    rcases getHistory_ok_or_rc sh (.jlist items) hsh with ⟨items2, hok⟩ | hrc
    · obtain ⟨hje, hprops⟩ := getHistory_ok_props sh (.jlist items) items2 hok
      injection hje with hje
      subst hje
      exact absurd hprops hbad
    · exact hrc

/-- A concrete confirmed history item at height 5. -/
def histItemW1 : JVal :=
  .jdict [(heightKey, .jint 5), (txHashKey, .jstr (List.replicate 64 'a'))]

/-- A concrete mempool history item (height 0, fee 0). -/
def histItemW2 : JVal :=
  .jdict [(heightKey, .jint 0), (txHashKey, .jstr (List.replicate 64 'b')),
          (feeKey, .jint 0)]

/-- A concrete valid history response: one confirmed item, then one
mempool item. -/
def histResW : JVal := .jlist [histItemW1, histItemW2]

/-- A concrete violating history response: the same txid twice. -/
def histResBadW : JVal := .jlist [histItemW1, histItemW1]

def shW : List Char := List.replicate 64 'c'

set_option maxRecDepth 8000 in
/-- Witness for C3: the valid concrete response `histResW` is returned and
satisfies the invariants, while the duplicate-txid response `histResBadW`
raises `RequestCorrupted`. -/
theorem getHistoryForScripthash_validated_example :
    (histResW = .jlist [histItemW1, histItemW2] ∧
      historyOkList [histItemW1, histItemW2]) ∧
    getHistoryForScripthash shW histResBadW = .error .requestCorrupted :=
  ⟨(getHistoryForScripthash_validated shW histResW (by decide)).1
     [histItemW1, histItemW2] rfl,
   (getHistoryForScripthash_validated shW histResBadW (by decide)).2.2
     [histItemW1, histItemW1] rfl
     (fun hbad => absurd hbad.2.2.2 (by decide))⟩

/-! ## Interface._search_headers_binary (interface.py 1121-1156)

During the search the supervisor's `bhi_lock` is held and the blockchain
store is treated as data: `check` is `blockchain.check_header` — the chain,
if any, a header checks against — `canConn c h` is
`c.can_connect(h, check_height=False)`, and `hdr` gives the payload the
server serves for each height (headers are deserialized with
`block_height` set to the requested height). -/

/-- A deserialized header: its `block_height` plus abstract payload. -/
structure BHeader where
  blockHeight : Nat
  data : Nat
deriving DecidableEq

/-- The exit of `_search_headers_binary` (interface.py 1151-1156): the
adopted `self.blockchain` must `can_connect` the bad header with
`check_height=False` (a `None` blockchain raises `AttributeError`), the bad
header must not check against any chain, and `(good, bad, bad_header)` is
returned. -/
def binFinish {C : Type} (check : BHeader → Option C) (canConn : C → BHeader → Bool)
    (good bad : Nat) (badHeader : BHeader) (bc : Option C) :
    Except IErr (Nat × Nat × BHeader × C) :=
  match bc with
  | none => .error .attrErr
  | some chain =>
    if ¬ canConn chain badHeader then .error .genericExn
    else if (check badHeader).isSome then .error .genericExn
    else .ok (good, bad, badHeader, chain)

/-- The `while True` loop of `_search_headers_binary` (interface.py
1133-1149): assert `0 ≤ good < bad`, probe the midpoint
`height = (good + bad) // 2`; on `check_header` success adopt the chain and
raise `good`, else lower `(bad, bad_header)`; exit into `binFinish` once
`good + 1 == bad`.  (The cache-warming call changes no observable state
here: each height yields the same header either way.) -/
def binLoop {C : Type} (check : BHeader → Option C) (canConn : C → BHeader → Bool)
    (hdr : Nat → Nat) (good bad : Nat) (badHeader : BHeader) (bc : Option C) :
    Except IErr (Nat × Nat × BHeader × C) :=
  if _hgb : ¬ good < bad then .error .assertionErr
  else
    match check ⟨(good + bad) / 2, hdr ((good + bad) / 2)⟩ with
    | some chain =>
      if hEnd : (good + bad) / 2 + 1 = bad then
        binFinish check canConn ((good + bad) / 2) bad badHeader (some chain)
      else binLoop check canConn hdr ((good + bad) / 2) bad badHeader (some chain)
    | none =>
      if hEnd : good + 1 = (good + bad) / 2 then
        binFinish check canConn good ((good + bad) / 2)
          ⟨(good + bad) / 2, hdr ((good + bad) / 2)⟩ bc
      else
        binLoop check canConn hdr good ((good + bad) / 2)
          ⟨(good + bad) / 2, hdr ((good + bad) / 2)⟩ bc
termination_by bad - good
decreasing_by
  · omega
  · omega

/-- Embeds `Interface._search_headers_binary` (interface.py 1121-1156):
the entry asserts `bad == bad_header['block_height']` and that the bad
header does not check against any chain, sets `self.blockchain = chain`
(possibly `None`) and `good = height`, then runs the loop. -/
def searchHeadersBinary {C : Type} (check : BHeader → Option C)
    (canConn : C → BHeader → Bool) (hdr : Nat → Nat)
    (height bad : Nat) (badHeader : BHeader) (chain : Option C) :
    Except IErr (Nat × Nat × BHeader × C) :=
  if bad ≠ badHeader.blockHeight then .error .assertionErr
  else if (check badHeader).isSome then .error .genericExn
  else binLoop check canConn hdr height bad badHeader chain

theorem binFinish_ok {C : Type} (check : BHeader → Option C)
    (canConn : C → BHeader → Bool) (good bad : Nat) (badHeader : BHeader)
    (bc : Option C) (r : Nat × Nat × BHeader × C)
    (h : binFinish check canConn good bad badHeader bc = .ok r) :
    r.1 = good ∧ r.2.1 = bad ∧ r.2.2.1 = badHeader ∧
    check badHeader = none ∧ canConn r.2.2.2 badHeader = true := by
  unfold binFinish at h
  split at h
  · exact absurd h (by simp)
  rename_i chain
  split at h
  · exact absurd h (by simp)
  rename_i hcc
  split at h
  · exact absurd h (by simp)
  rename_i hck
  rw [not_not] at hcc
  injection h with h
  subst h
  refine ⟨rfl, rfl, rfl, ?_, hcc⟩
  cases hc : check badHeader with
  | none => rfl
  | some c0 =>
    rw [hc] at hck
    exact absurd rfl hck

theorem binLoop_ok {C : Type} (check : BHeader → Option C)
    (canConn : C → BHeader → Bool) (hdr : Nat → Nat) :
    ∀ (n good bad : Nat) (badHeader : BHeader) (bc : Option C)
      (r : Nat × Nat × BHeader × C),
      bad - good ≤ n →
      binLoop check canConn hdr good bad badHeader bc = .ok r →
      r.1 + 1 = r.2.1 ∧ check r.2.2.1 = none ∧ canConn r.2.2.2 r.2.2.1 = true := by
  intro n
  induction n with
  | zero =>
    intro good bad badHeader bc r hle h
    unfold binLoop at h
    split at h
    · exact absurd h (by simp)
    rename_i hgb
    rw [not_not] at hgb
    omega
  | succ n ih =>
    intro good bad badHeader bc r hle h
    unfold binLoop at h
    split at h
    · exact absurd h (by simp)
    rename_i hgb
    rw [not_not] at hgb
    split at h
    · rename_i chain hchk
      split at h
      · rename_i hEnd
        obtain ⟨h1, h2, h3, h4, h5⟩ := binFinish_ok check canConn _ _ _ _ r h
        rw [h1, h2, h3]
        exact ⟨hEnd, h4, (h3 ▸ h5)⟩
      · rename_i hEnd
        exact ih ((good + bad) / 2) bad badHeader (some chain) r (by omega) h
    · rename_i hchk
      split at h
      · rename_i hEnd
        obtain ⟨h1, h2, h3, h4, h5⟩ := binFinish_ok check canConn _ _ _ _ r h
        rw [h1, h2, h3]
        exact ⟨hEnd, h4, (h3 ▸ h5)⟩
      · rename_i hEnd
        exact ih good ((good + bad) / 2) ⟨(good + bad) / 2, hdr ((good + bad) / 2)⟩
          bc r (by omega) h

/-- C1.  Every run of the binary fork search that returns a triple
`(good, bad, bad_header)` satisfies `good + 1 == bad`, `bad_header` does
not `check_header` against any known chain, and `bad_header` can_connect
(with `check_height=False`) to the chain adopted as `self.blockchain` at
exit. -/
theorem searchHeadersBinary_ok_postconditions {C : Type}
    (check : BHeader → Option C) (canConn : C → BHeader → Bool) (hdr : Nat → Nat)
    (height bad0 : Nat) (badHeader0 : BHeader) (chain0 : Option C)
    (good bad : Nat) (badHeader : BHeader) (c : C)
    (h : searchHeadersBinary check canConn hdr height bad0 badHeader0 chain0
      = .ok (good, bad, badHeader, c)) :
    good + 1 = bad ∧ check badHeader = none ∧ canConn c badHeader = true := by
  unfold searchHeadersBinary at h
  split at h
  · exact absurd h (by simp)
  split at h
  · exact absurd h (by simp)
  exact binLoop_ok check canConn hdr bad0 height bad0 badHeader0 chain0
    (good, bad, badHeader, c) (by omega) h

/-- A concrete `check_header`: chain 0 knows precisely heights up to 5. -/
def checkB : BHeader → Option Nat := fun h => if h.blockHeight ≤ 5 then some 0 else none

/-- A concrete `can_connect(·, check_height=False)`: chain 0 accepts the
header at height 6. -/
def canConnB : Nat → BHeader → Bool := fun _ h => h.blockHeight == 6

/-- Concrete server headers. -/
def hdrB : Nat → Nat := fun _ => 0

/-- Witness for C1: a concrete binary search bracketing fork point 5/6. -/
theorem searchHeadersBinary_ok_postconditions_example :
    5 + 1 = 6 ∧ checkB ⟨6, 0⟩ = none ∧ canConnB 0 ⟨6, 0⟩ = true :=
  searchHeadersBinary_ok_postconditions checkB canConnB hdrB 5 7 ⟨7, 0⟩ (some 0)
    5 6 ⟨6, 0⟩ 0
    (by simp [searchHeadersBinary, binLoop, binFinish, checkB, canConnB, hdrB])
